import Mathlib

/-!
Shallow embedding of the Raft consensus core from `src/raft/raft.go`
(package `raft` of FitrahHaque/Raft-Consensus).

Each Lean definition below translates one Go function (or the state-mutating
body of one Go function) into a pure state-passing function on a `Node`
record.  Machine integers (`uint64`, `int64`) are modelled as `Nat` / `Int`;
none of the verified properties involve wrap-around.  Wall-clock timestamps
(`time.Time`) are modelled as an abstract `Nat` parameter `now` written into
`electionResetEvent`.  Channel sends (`newCommitReady`, `trigger`) are
modelled as `Bool` outputs signalling that a send happened.
-/

namespace Raft

/-- Role of a replica: `NodeState` in raft.go. -/
inductive NodeState where
  | Follower
  | Candidate
  | Leader
  | Dead
deriving DecidableEq, Repr

/-- Commands carried by log entries.  In the Go source the command is an
`interface\x7b\x7d` holding one of the concrete types `Write`, `Read`,
`AddServer`, `RemoveServer`; we model it as a closed sum.  (`RemoveServer` is
referenced by raft.go but its declaration is outside the shown sources; per
the spec it is a variant carrying the id of the server to remove.) -/
inductive Command where
  | write (key : String) (val : Int)
  | read (key : String)
  | addServer (serverId : Nat) (addr : String)
  | removeServer (serverId : Nat)
deriving DecidableEq, Repr

/-- `LogEntry` in raft.go: a command together with the term it was created in. -/
structure LogEntry where
  command : Command
  term : Nat
deriving DecidableEq, Repr

/-- `CommitEntry` in raft.go: a record delivered on the commit channel. -/
structure CommitEntry where
  command : Command
  term : Nat
  index : Nat
deriving DecidableEq, Repr

/-- The mutable Raft state of `Node` in raft.go.  `peerList` models the
`Set` of peer ids; `nextIndex` / `matchedIndex` model the Go maps (with the
Go zero-value-on-missing-key semantics via total functions); `db` models the
byte-keyed store restricted to the integer values the `Read` path decodes. -/
structure Node where
  id : Nat
  peerList : Finset Nat
  currentTerm : Nat
  votedFor : Int
  log : List LogEntry
  commitLength : Nat
  lastApplied : Nat
  state : NodeState
  electionResetEvent : Nat
  nextIndex : Nat → Nat
  matchedIndex : Nat → Nat
  db : String → Option Int

/-- Term of the entry at 1-based index `i` of `log` (0 when out of range).
raft.go accesses `log[i-1].Term`; every access site is guarded so the
out-of-range default is never observable. -/
def logTerm (log : List LogEntry) (i : Nat) : Nat :=
  ((log.get? (i - 1)).map LogEntry.term).getD 0

/-- `Node.becomeFollower` in raft.go (lines 643-649): step down to Follower
at `newTerm`, clearing the vote and resetting the election timer. -/
def Node.becomeFollower (node : Node) (newTerm : Nat) (now : Nat) : Node :=
  { node with
      state := NodeState.Follower
      currentTerm := newTerm
      votedFor := -1
      electionResetEvent := now }

/-- The state mutation of `Node.startElection` in raft.go (lines 269-275):
become Candidate, advance the term, reset the timer, and vote for self.
(The vote solicitation RPCs it spawns are asynchronous and not part of the
local state change.) -/
def Node.startElection (node : Node) (now : Nat) : Node :=
  { node with
      state := NodeState.Candidate
      currentTerm := node.currentTerm + 1
      electionResetEvent := now
      votedFor := (node.id : Int) }

/-- `Node.lastLogIndexAndTerm` in raft.go (lines 464-470).  Note the Go code
returns the 0-based index `len(log)-1` of the last entry (0 for an empty
log) together with that entry's term. -/
def Node.lastLogIndexAndTerm (node : Node) : Nat × Nat :=
  if node.log.length > 0 then
    (node.log.length - 1, logTerm node.log node.log.length)
  else
    (0, 0)

/-- `AppendEntriesArgs` in raft.go. -/
structure AppendEntriesArgs where
  term : Nat
  leaderId : Nat
  lastLogIndex : Nat
  lastLogTerm : Nat
  entries : List LogEntry
  leaderCommit : Nat

/-- `AppendEntriesReply` in raft.go. -/
structure AppendEntriesReply where
  term : Nat
  success : Bool
  recoveryIndex : Nat
  recoveryTerm : Nat
deriving DecidableEq, Repr

/-- The backward conflict scan of the `AppendEntries` handler (raft.go lines
602-608): starting from `i = args.LastLogIndex - 1` and walking down to 1,
report `i+1` for the first (closest) index whose term differs from the
recovery term, defaulting to 1. -/
def backScan (log : List LogEntry) (recoveryTerm : Nat) : Nat → Nat
  | 0 => 1
  | i + 1 => if logTerm log (i + 1) ≠ recoveryTerm then i + 2 else backScan log recoveryTerm i

/-- Peer-set effect of applying appended entries (raft.go lines 579-591): a
`RemoveServer` entry for another, currently-known server removes it from the
peer set.  (An `AddServer` entry only opens a transport connection, which is
server-layer state, not `Node` state.) -/
def applyMembership (selfId : Nat) (entries : List LogEntry) (peers : Finset Nat) : Finset Nat :=
  entries.foldl
    (fun pl e =>
      match e.command with
      | Command.removeServer sid => if selfId ≠ sid ∧ sid ∈ pl then pl.erase sid else pl
      | _ => pl)
    peers

/-- `Node.AppendEntries` RPC handler in raft.go (lines 558-615).  Returns the
updated node, the reply, and whether `newCommitReady` was signalled.
A Dead node, or one that does not know the sender, returns the zero-valued
reply unchanged. -/
def Node.appendEntries (node : Node) (args : AppendEntriesArgs) (now : Nat) :
    Node × AppendEntriesReply × Bool :=
  if node.state = NodeState.Dead ∨ args.leaderId ∉ node.peerList then
    (node, { term := 0, success := false, recoveryIndex := 0, recoveryTerm := 0 }, false)
  else
    let n1 := if args.term > node.currentTerm then node.becomeFollower args.term now else node
    if args.term = n1.currentTerm then
      let n2 := if n1.state ≠ NodeState.Follower then n1.becomeFollower args.term now else n1
      let n3 := { n2 with electionResetEvent := now }
      if args.lastLogIndex = 0 ∨
          (args.lastLogIndex ≤ n3.log.length ∧
            args.lastLogTerm = logTerm n3.log args.lastLogIndex) then
        let newLog := n3.log.take args.lastLogIndex ++ args.entries
        let n4 := { n3 with
                      log := newLog
                      peerList := applyMembership n3.id args.entries n3.peerList }
        if args.leaderCommit > n4.commitLength then
          ({ n4 with commitLength := min args.leaderCommit newLog.length },
           { term := n4.currentTerm, success := true, recoveryIndex := 0, recoveryTerm := 0 },
           true)
        else
          (n4,
           { term := n4.currentTerm, success := true, recoveryIndex := 0, recoveryTerm := 0 },
           false)
      else
        if args.lastLogIndex > n3.log.length then
          (n3,
           { term := n3.currentTerm, success := false,
             recoveryIndex := n3.log.length + 1, recoveryTerm := 0 },
           false)
        else
          (n3,
           { term := n3.currentTerm, success := false,
             recoveryIndex := backScan n3.log (logTerm n3.log args.lastLogIndex) (args.lastLogIndex - 1),
             recoveryTerm := logTerm n3.log args.lastLogIndex },
           false)
    else
      (n1, { term := n1.currentTerm, success := false, recoveryIndex := 0, recoveryTerm := 0 },
       false)

/-- `RequestVoteArgs` in raft.go. -/
structure RequestVoteArgs where
  term : Nat
  candidateId : Nat
  lastLogIndex : Nat
  lastLogTerm : Nat

/-- `RequestVoteReply` in raft.go. -/
structure RequestVoteReply where
  term : Nat
  voteGranted : Bool
deriving DecidableEq, Repr

/-- `Node.RequestVote` RPC handler in raft.go (lines 617-641). -/
def Node.requestVote (node : Node) (args : RequestVoteArgs) (now : Nat) :
    Node × RequestVoteReply :=
  if node.state = NodeState.Dead ∨ args.candidateId ∉ node.peerList then
    (node, { term := 0, voteGranted := false })
  else
    let lastLogIndex := node.lastLogIndexAndTerm.1
    let lastLogTerm := node.lastLogIndexAndTerm.2
    let n1 := if args.term > node.currentTerm then node.becomeFollower args.term now else node
    if args.term = n1.currentTerm ∧
        (n1.votedFor = -1 ∨ n1.votedFor = (args.candidateId : Int)) ∧
        (args.lastLogTerm > lastLogTerm ∨
          (args.lastLogTerm = lastLogTerm ∧ args.lastLogIndex ≥ lastLogIndex)) then
      ({ n1 with votedFor := (args.candidateId : Int), electionResetEvent := now },
       { term := n1.currentTerm, voteGranted := true })
    else
      (n1, { term := n1.currentTerm, voteGranted := false })

/-- The single-node commit loop of `Node.leaderSendAppendEntries` (raft.go
lines 373-377): for each `i` from `c+1` to `|log|`, set the commit length to
`i` whenever `log[i-1].Term == currentTerm`. -/
def commitScanNoPeers (log : List LogEntry) (term : Nat) (c : Nat) : Nat :=
  (List.range' (c + 1) (log.length - c)).foldl
    (fun acc i => if logTerm log i = term then i else acc) c

/-- The no-peer branch of `Node.leaderSendAppendEntries` (raft.go lines
368-385): a cluster with an empty peer set commits local entries of the
current term directly.  Returns the updated node and whether the commit
length changed (which signals `newCommitReady` and `trigger`). -/
def Node.advanceCommitNoPeers (node : Node) : Node × Bool :=
  if node.peerList.card = 0 ∧ node.log.length > node.commitLength then
    let c := commitScanNoPeers node.log node.currentTerm node.commitLength
    ({ node with commitLength := c }, c != node.commitLength)
  else
    (node, false)

/-- The match count `1 + |\x7bp : matchedIndex[p] ≥ i\x7d|` computed in
raft.go lines 423-428. -/
def quorumMatch (peers : Finset Nat) (matched : Nat → Nat) (i : Nat) : Nat :=
  1 + (peers.filter (fun p => matched p ≥ i)).card

/-- The leader commit loop of `Node.leaderSendAppendEntries` (raft.go lines
421-433): for each `i` from `c+1` to `|log|`, set the commit length to `i`
whenever the entry has the current term and a strict majority of
`peers.card + 1` matches. -/
def commitScanQuorum (log : List LogEntry) (term : Nat) (peers : Finset Nat)
    (matched : Nat → Nat) (c : Nat) : Nat :=
  (List.range' (c + 1) (log.length - c)).foldl
    (fun acc i =>
      if logTerm log i = term ∧ quorumMatch peers matched i * 2 > peers.card + 1 then i else acc)
    c

/-- The descending search of raft.go lines 443-449: the largest 1-based index
(scanned from `|log|` down to 1, `0` when none) whose entry has term `t`.
The `Nat` argument is the loop counter, called with `log.length`. -/
def findLastWithTerm (log : List LogEntry) (t : Nat) : Nat → Nat
  | 0 => 0
  | i + 1 => if logTerm log (i + 1) = t then i + 1 else findLastWithTerm log t i

/-- The reply-processing section of `Node.leaderSendAppendEntries` (raft.go
lines 409-457), for one peer: `leadershipTerm` is the term saved before
sending, `nextIndexSaved` the saved `nextIndex[peer]`, `entriesLen` the
number of entries that were sent.  Returns the updated node and whether the
commit length changed. -/
def Node.processAppendEntriesReply (node : Node) (peer : Nat) (leadershipTerm : Nat)
    (nextIndexSaved : Nat) (entriesLen : Nat) (reply : AppendEntriesReply) (now : Nat) :
    Node × Bool :=
  if reply.term > leadershipTerm then
    (node.becomeFollower reply.term now, false)
  else if node.state = NodeState.Leader ∧ leadershipTerm = reply.term then
    if reply.success then
      let ni := nextIndexSaved + entriesLen
      let n1 := { node with
                    nextIndex := fun p => if p = peer then ni else node.nextIndex p
                    matchedIndex := fun p => if p = peer then ni - 1 else node.matchedIndex p }
      let c := commitScanQuorum n1.log n1.currentTerm n1.peerList n1.matchedIndex n1.commitLength
      ({ n1 with commitLength := c }, c != n1.commitLength)
    else
      if reply.recoveryTerm = 0 then
        ({ node with
             nextIndex := fun p => if p = peer then reply.recoveryIndex else node.nextIndex p },
         false)
      else
        let lastLogIndex := findLastWithTerm node.log reply.recoveryTerm node.log.length
        if lastLogIndex = 0 then
          ({ node with
               nextIndex := fun p => if p = peer then reply.recoveryIndex else node.nextIndex p },
           false)
        else
          ({ node with
               nextIndex := fun p => if p = peer then lastLogIndex + 1 else node.nextIndex p },
           false)
  else
    (node, false)

/-- The delivery loop of `Node.sendCommit` (raft.go lines 222-229): the
`i`-th pending entry is delivered with `Index = lastAppliedSaved + i + 1` and
`Term = currentTermSaved`.  `base` is `lastAppliedSaved + i` at each step. -/
def dispatchFrom (pending : List LogEntry) (term : Nat) (base : Nat) : List CommitEntry :=
  match pending with
  | [] => []
  | e :: rest =>
      { command := e.command, term := term, index := base + 1 } :: dispatchFrom rest term (base + 1)

/-- One iteration of the `Node.sendCommit` dispatcher (raft.go lines
211-231): snapshot `lastApplied` and `currentTerm`, capture
`log[lastApplied:commitLength]`, advance `lastApplied` to `commitLength`,
and deliver the captured entries.  Returns the updated node and the list of
delivered records in order. -/
def Node.sendCommitStep (node : Node) : Node × List CommitEntry :=
  let pending :=
    if node.commitLength > node.lastApplied then
      (node.log.drop node.lastApplied).take (node.commitLength - node.lastApplied)
    else []
  let n1 :=
    if node.commitLength > node.lastApplied then
      { node with lastApplied := node.commitLength }
    else node
  (n1, dispatchFrom pending node.currentTerm node.lastApplied)

/-- Errors surfaced by `Node.newLogEntry`: the `KeyNotFound` error of
`readFromStorage` (raft.go line 698) and the removal rejection (line 729). -/
inductive SubmitError where
  | keyNotFound (key : String)
  | cannotRemove (serverId : Nat) (nodeId : Nat)
deriving DecidableEq, Repr

/-- The `Read` path of `Node.newLogEntry` backed by `readFromStorage`
(raft.go lines 690-701, 709-716): a found key yields its value, a missing
key yields the Go zero value together with the `KeyNotFound` error; either
way the call reports success. -/
def readResult (node : Node) (key : String) : Bool × Option Int × Option SubmitError :=
  match node.db key with
  | some v => (true, some v, none)
  | none => (true, some 0, some (SubmitError.keyNotFound key))

/-- `Node.newLogEntry` in raft.go (lines 703-766).  Returns the updated
node, the `(bool, value, error)` triple the Go function returns, and whether
`trigger` was signalled. -/
def Node.newLogEntry (node : Node) (command : Command) :
    Node × (Bool × Option Int × Option SubmitError) × Bool :=
  if node.state = NodeState.Leader then
    match command with
    | Command.read key => (node, readResult node key, false)
    | Command.addServer _ _ =>
        ({ node with log := node.log ++ [{ command := command, term := node.currentTerm }] },
         (true, none, none), true)
    | Command.removeServer sid =>
        if sid ∉ node.peerList ∨ node.id = sid then
          (node, (false, none, some (SubmitError.cannotRemove sid node.id)), false)
        else
          ({ node with
               log := node.log ++ [{ command := command, term := node.currentTerm }]
               peerList := node.peerList.erase sid },
           (true, none, none), true)
    | Command.write _ _ =>
        ({ node with log := node.log ++ [{ command := command, term := node.currentTerm }] },
         (true, none, none), true)
  else
    match command with
    | Command.read key => (node, readResult node key, false)
    | _ => (node, (false, none, none), false)

/-- `LeaveClusterArgs` in raft.go. -/
structure LeaveClusterArgs where
  serverId : Nat

/-- `LeaveClusterReply` in raft.go. -/
structure LeaveClusterReply where
  success : Bool
deriving DecidableEq, Repr

/-- `Node.LeaveCluster` RPC handler in raft.go (lines 517-536).  The handler
sets `reply.Success` before inspecting `args.ServerId` and spawns
`go node.newLogEntry(RemoveServer\x7b...\x7d)` when the id is a known peer;
we sequence that spawned call after the handler body. -/
def Node.leaveCluster (node : Node) (args : LeaveClusterArgs) : Node × LeaveClusterReply :=
  if node.state ≠ NodeState.Leader then
    (node, { success := false })
  else if args.serverId ∉ node.peerList then
    (node, { success := true })
  else
    ((node.newLogEntry (Command.removeServer args.serverId)).1, { success := true })

/-- The commit-tracking invariant of spec.md §3 restricted to one replica:
`lastApplied ≤ commitLength ≤ |log|` (all fields are `Nat`, so `0 ≤` is
implicit). -/
def Node.commitInv (node : Node) : Prop :=
  node.lastApplied ≤ node.commitLength ∧ node.commitLength ≤ node.log.length

/-- A sample application entry used by the concrete witnesses below. -/
def sampleEntry (t : Nat) : LogEntry :=
  { command := Command.write "k" 1, term := t }

/-- A concrete follower used by the witnesses: id 1, peers 2 and 3,
current term 2, log `[k@1, k@1, k@2]`, commit length 1. -/
def nodeA : Node :=
  { id := 1
    peerList := {2, 3}
    currentTerm := 2
    votedFor := -1
    log := [sampleEntry 1, sampleEntry 1, sampleEntry 2]
    commitLength := 1
    lastApplied := 0
    state := NodeState.Follower
    electionResetEvent := 0
    nextIndex := fun _ => 1
    matchedIndex := fun _ => 0
    db := fun _ => none }

/-- Claim C1: for an `AppendEntries` call received by a non-Dead node that
knows the sender, with `args.Term` equal to the node's current term, the
reply is successful iff `args.LastLogIndex = 0` or `args.LastLogIndex` is at
most the log length and the entry at that 1-based index has term
`args.LastLogTerm`; and on success the log becomes the `args.LastLogIndex`
prefix followed by `args.Entries`. -/
theorem appendEntries_consistency (node : Node) (args : AppendEntriesArgs) (now : Nat)
    (hDead : node.state ≠ NodeState.Dead) (hPeer : args.leaderId ∈ node.peerList)
    (hTerm : args.term = node.currentTerm) :
    ((node.appendEntries args now).2.1.success = true ↔
      (args.lastLogIndex = 0 ∨
        (args.lastLogIndex ≤ node.log.length ∧
          args.lastLogTerm = logTerm node.log args.lastLogIndex))) ∧
    ((node.appendEntries args now).2.1.success = true →
      (node.appendEntries args now).1.log = node.log.take args.lastLogIndex ++ args.entries) := by
  have hnd : ¬(node.state = NodeState.Dead ∨ args.leaderId ∉ node.peerList) := by
    push_neg
    exact ⟨hDead, hPeer⟩
  have hgt : ¬(node.currentTerm < args.term) := by omega
  by_cases hF : node.state = NodeState.Follower <;>
    by_cases hchk : args.lastLogIndex = 0 ∨
        (args.lastLogIndex ≤ node.log.length ∧
          args.lastLogTerm = logTerm node.log args.lastLogIndex) <;>
      by_cases hLC : node.commitLength < args.leaderCommit <;>
        by_cases hLen : node.log.length < args.lastLogIndex <;>
          simp [Node.appendEntries, Node.becomeFollower, hnd, hgt, hTerm, hF, hchk, hLC, hLen,
            hPeer, hDead]

/-- Witness for `appendEntries_consistency` at a concrete input: `nodeA`
receives a matching `AppendEntries` at index 2 and ends with the truncated
prefix plus the two new entries. -/
theorem appendEntries_consistency_app :
    nodeA.state ≠ NodeState.Dead ∧ (2 : Nat) ∈ nodeA.peerList ∧ (2 : Nat) = nodeA.currentTerm ∧
    (((nodeA.appendEntries
        { term := 2, leaderId := 2, lastLogIndex := 2, lastLogTerm := 1,
          entries := [sampleEntry 2, sampleEntry 2], leaderCommit := 3 } 5).2.1.success = true ↔
      ((2 : Nat) = 0 ∨
        ((2 : Nat) ≤ nodeA.log.length ∧ (1 : Nat) = logTerm nodeA.log 2))) ∧
     ((nodeA.appendEntries
        { term := 2, leaderId := 2, lastLogIndex := 2, lastLogTerm := 1,
          entries := [sampleEntry 2, sampleEntry 2], leaderCommit := 3 } 5).2.1.success = true →
      (nodeA.appendEntries
        { term := 2, leaderId := 2, lastLogIndex := 2, lastLogTerm := 1,
          entries := [sampleEntry 2, sampleEntry 2], leaderCommit := 3 } 5).1.log =
        nodeA.log.take 2 ++ [sampleEntry 2, sampleEntry 2])) :=
  ⟨by decide, by decide, by decide,
   appendEntries_consistency nodeA
     { term := 2, leaderId := 2, lastLogIndex := 2, lastLogTerm := 1,
       entries := [sampleEntry 2, sampleEntry 2], leaderCommit := 3 } 5
     (by decide) (by decide) (by decide)⟩

/-- Claim C2: for a `RequestVote` call received by a non-Dead node that
knows the candidate, the vote is granted iff `args.Term` equals the current
term after any step-down, `votedFor` (after any step-down) is the sentinel
`-1` or the candidate, and the candidate's log is at least as up-to-date
(`args.LastLogTerm` greater than the local last log term, or equal with
`args.LastLogIndex` at least the local last log index); on grant `votedFor`
becomes the candidate and the election timer is reset. -/
theorem requestVote_grant_spec (node : Node) (args : RequestVoteArgs) (now : Nat)
    (hDead : node.state ≠ NodeState.Dead) (hPeer : args.candidateId ∈ node.peerList) :
    ((node.requestVote args now).2.voteGranted = true ↔
      (args.term =
          (if node.currentTerm < args.term then node.becomeFollower args.term now
            else node).currentTerm ∧
        ((if node.currentTerm < args.term then node.becomeFollower args.term now
            else node).votedFor = -1 ∨
          (if node.currentTerm < args.term then node.becomeFollower args.term now
            else node).votedFor = (args.candidateId : Int)) ∧
        (node.lastLogIndexAndTerm.2 < args.lastLogTerm ∨
          (args.lastLogTerm = node.lastLogIndexAndTerm.2 ∧
            node.lastLogIndexAndTerm.1 ≤ args.lastLogIndex)))) ∧
    ((node.requestVote args now).2.voteGranted = true →
      (node.requestVote args now).1.votedFor = (args.candidateId : Int) ∧
      (node.requestVote args now).1.electionResetEvent = now) := by
  have hnd : ¬(node.state = NodeState.Dead ∨ args.candidateId ∉ node.peerList) := by
    push_neg
    exact ⟨hDead, hPeer⟩
  simp only [Node.requestVote, if_neg hnd, gt_iff_lt, ge_iff_le]
  split_ifs with h1 h2 h2 <;> dsimp only <;> refine ⟨?_, ?_⟩ <;> tauto

/-- Witness for `requestVote_grant_spec` at a concrete input: candidate 2
solicits `nodeA` at term 3 with an up-to-date log. -/
theorem requestVote_grant_spec_app :
    nodeA.state ≠ NodeState.Dead ∧ (2 : Nat) ∈ nodeA.peerList ∧
    (((nodeA.requestVote
        { term := 3, candidateId := 2, lastLogIndex := 2, lastLogTerm := 2 } 7).2.voteGranted = true ↔
      ((3 : Nat) =
          (if nodeA.currentTerm < 3 then nodeA.becomeFollower 3 7 else nodeA).currentTerm ∧
        ((if nodeA.currentTerm < 3 then nodeA.becomeFollower 3 7 else nodeA).votedFor = -1 ∨
          (if nodeA.currentTerm < 3 then nodeA.becomeFollower 3 7 else nodeA).votedFor =
            ((2 : Nat) : Int)) ∧
        (nodeA.lastLogIndexAndTerm.2 < 2 ∨
          ((2 : Nat) = nodeA.lastLogIndexAndTerm.2 ∧ nodeA.lastLogIndexAndTerm.1 ≤ 2)))) ∧
     ((nodeA.requestVote
        { term := 3, candidateId := 2, lastLogIndex := 2, lastLogTerm := 2 } 7).2.voteGranted = true →
      (nodeA.requestVote
        { term := 3, candidateId := 2, lastLogIndex := 2, lastLogTerm := 2 } 7).1.votedFor =
          ((2 : Nat) : Int) ∧
      (nodeA.requestVote
        { term := 3, candidateId := 2, lastLogIndex := 2, lastLogTerm := 2 } 7).1.electionResetEvent = 7)) :=
  ⟨by decide, by decide,
   requestVote_grant_spec nodeA
     { term := 3, candidateId := 2, lastLogIndex := 2, lastLogTerm := 2 } 7
     (by decide) (by decide)⟩

/-- A Go loop of the shape `for i := a+1; i <= a+k; i++ \x7b if p(i) \x7b acc = i \x7d \x7d`
(modelled as a `foldl`) leaves the accumulator unchanged or stops at a
visited element satisfying `p`. -/
theorem foldl_select_eq_or (p : Nat → Prop) [DecidablePred p] (l : List Nat) (a : Nat) :
    l.foldl (fun acc i => if p i then i else acc) a = a ∨
      (l.foldl (fun acc i => if p i then i else acc) a ∈ l ∧
        p (l.foldl (fun acc i => if p i then i else acc) a)) := by
  induction l generalizing a with
  | nil => exact Or.inl rfl
  | cons x xs ih =>
    simp only [List.foldl_cons]
    rcases ih (if p x then x else a) with h | ⟨hmem, hp⟩
    · rw [h]
      by_cases hpx : p x
      · exact Or.inr ⟨by simp [hpx], by simp [hpx]⟩
      · simp [hpx]
    · exact Or.inr ⟨List.mem_cons_of_mem _ hmem, hp⟩

/-- Over an ascending range, the same loop ends at or above every visited
element satisfying `p`. -/
theorem foldl_select_ge (p : Nat → Prop) [DecidablePred p] (s : Nat) :
    ∀ (k a : Nat), ∀ j ∈ List.range' s k, p j →
      j ≤ (List.range' s k).foldl (fun acc i => if p i then i else acc) a := by
  intro k
  induction k with
  | zero =>
    intro a j hj
    simp at hj
  | succ n ih =>
    intro a j hj hpj
    have hcat0 : List.range' s (n + 1) 1 = List.range' s n 1 ++ [s + 1 * n] :=
      List.range'_concat s n
    have hcat : List.range' s (n + 1) = List.range' s n ++ [s + n] := by
      simpa using hcat0
    rw [hcat] at hj ⊢
    rw [List.foldl_append, List.foldl_cons, List.foldl_nil]
    rcases List.mem_append.1 hj with hmem | hlast
    · by_cases hp : p (s + n)
      · rw [if_pos hp]
        have := List.mem_range'_1.1 hmem
        omega
      · rw [if_neg hp]
        exact ih a j hmem hpj
    · simp only [List.mem_singleton] at hlast
      subst hlast
      simp [hpj]

/-- A concrete single-node leader (empty peer set) used by the witnesses. -/
def nodeS : Node :=
  { id := 1
    peerList := ∅
    currentTerm := 1
    votedFor := 1
    log := [sampleEntry 1]
    commitLength := 0
    lastApplied := 0
    state := NodeState.Leader
    electionResetEvent := 0
    nextIndex := fun _ => 1
    matchedIndex := fun _ => 0
    db := fun _ => none }

/-- Claim C3: the leader's quorum commit loop only advances the commit
length to an index `i` in `(commitLength, |log|]` whose entry carries the
current term and whose match count `1 + |\x7bp : matchedIndex[p] ≥ i\x7d|`
strictly exceeds half of `peers.card + 1`; and a node with no peers
advances the commit length, without any quorum condition, past every index
in `(commitLength, |log|]` whose entry carries the current term. -/
theorem leader_commit_advancement (log : List LogEntry) (term : Nat) (peers : Finset Nat)
    (matched : Nat → Nat) (c : Nat) (node : Node) (hPeers : node.peerList.card = 0) :
    (commitScanQuorum log term peers matched c = c ∨
      (c < commitScanQuorum log term peers matched c ∧
        commitScanQuorum log term peers matched c ≤ log.length ∧
        logTerm log (commitScanQuorum log term peers matched c) = term ∧
        quorumMatch peers matched (commitScanQuorum log term peers matched c) * 2 >
          peers.card + 1)) ∧
    (node.advanceCommitNoPeers.1.commitLength = node.commitLength ∨
      (node.commitLength < node.advanceCommitNoPeers.1.commitLength ∧
        node.advanceCommitNoPeers.1.commitLength ≤ node.log.length ∧
        logTerm node.log node.advanceCommitNoPeers.1.commitLength = node.currentTerm)) ∧
    (∀ j, node.commitLength < j → j ≤ node.log.length →
      logTerm node.log j = node.currentTerm →
      j ≤ node.advanceCommitNoPeers.1.commitLength) := by
  refine ⟨?_, ?_, ?_⟩
  · unfold commitScanQuorum
    rcases foldl_select_eq_or
        (fun i => logTerm log i = term ∧ quorumMatch peers matched i * 2 > peers.card + 1)
        (List.range' (c + 1) (log.length - c)) c with h | ⟨hmem, hp⟩
    · exact Or.inl h
    · have hb := List.mem_range'_1.1 hmem
      exact Or.inr ⟨by omega, by omega, hp.1, hp.2⟩
  · by_cases hLen : node.commitLength < node.log.length
    · unfold Node.advanceCommitNoPeers
      rw [if_pos ⟨hPeers, hLen⟩]
      dsimp only
      unfold commitScanNoPeers
      rcases foldl_select_eq_or (fun i => logTerm node.log i = node.currentTerm)
          (List.range' (node.commitLength + 1) (node.log.length - node.commitLength))
          node.commitLength with h | ⟨hmem, hp⟩
      · exact Or.inl h
      · have hb := List.mem_range'_1.1 hmem
        exact Or.inr ⟨by omega, by omega, hp⟩
    · unfold Node.advanceCommitNoPeers
      rw [if_neg (fun hand => hLen hand.2)]
      exact Or.inl rfl
  · intro j hj1 hj2 hj3
    have hLen : node.commitLength < node.log.length := by omega
    unfold Node.advanceCommitNoPeers
    rw [if_pos ⟨hPeers, hLen⟩]
    dsimp only
    unfold commitScanNoPeers
    exact foldl_select_ge (fun i => logTerm node.log i = node.currentTerm)
      (node.commitLength + 1) (node.log.length - node.commitLength) node.commitLength j
      (List.mem_range'_1.2 ⟨by omega, by omega⟩) hj3

/-- Witness for `leader_commit_advancement` at concrete inputs: a one-entry
log at term 1 with one matching peer, and the single-node leader `nodeS`. -/
theorem leader_commit_advancement_app :
    nodeS.peerList.card = 0 ∧
    ((commitScanQuorum [sampleEntry 1] 1 {2} (fun _ => 1) 0 = 0 ∨
      (0 < commitScanQuorum [sampleEntry 1] 1 {2} (fun _ => 1) 0 ∧
        commitScanQuorum [sampleEntry 1] 1 {2} (fun _ => 1) 0 ≤ [sampleEntry 1].length ∧
        logTerm [sampleEntry 1] (commitScanQuorum [sampleEntry 1] 1 {2} (fun _ => 1) 0) = 1 ∧
        quorumMatch {2} (fun _ => 1) (commitScanQuorum [sampleEntry 1] 1 {2} (fun _ => 1) 0) * 2 >
          ({2} : Finset Nat).card + 1)) ∧
    (nodeS.advanceCommitNoPeers.1.commitLength = nodeS.commitLength ∨
      (nodeS.commitLength < nodeS.advanceCommitNoPeers.1.commitLength ∧
        nodeS.advanceCommitNoPeers.1.commitLength ≤ nodeS.log.length ∧
        logTerm nodeS.log nodeS.advanceCommitNoPeers.1.commitLength = nodeS.currentTerm)) ∧
    (∀ j, nodeS.commitLength < j → j ≤ nodeS.log.length →
      logTerm nodeS.log j = nodeS.currentTerm →
      j ≤ nodeS.advanceCommitNoPeers.1.commitLength)) :=
  ⟨by decide,
   leader_commit_advancement [sampleEntry 1] 1 {2} (fun _ => 1) 0 nodeS (by decide)⟩

/-- Characterization of `backScan`: either it returns `j + 1` for the
closest index `j ≤ k` (scanning backwards) whose term differs from the
recovery term, or every index in `[1, k]` has the recovery term and it
returns the default 1. -/
theorem backScan_spec (log : List LogEntry) (rt : Nat) (k : Nat) :
    (∃ j, 0 < j ∧ j ≤ k ∧ logTerm log j ≠ rt ∧ backScan log rt k = j + 1 ∧
      (∀ i, j < i → i ≤ k → logTerm log i = rt)) ∨
    ((∀ i, 0 < i → i ≤ k → logTerm log i = rt) ∧ backScan log rt k = 1) := by
  induction k with
  | zero =>
    right
    exact ⟨fun i h1 h2 => absurd (Nat.lt_of_lt_of_le h1 h2) (lt_irrefl 0), rfl⟩
  | succ k ih =>
    by_cases h : logTerm log (k + 1) ≠ rt
    · left
      refine ⟨k + 1, Nat.succ_pos k, le_refl _, h, ?_, ?_⟩
      · simp [backScan, h]
      · intro i hi1 hi2
        omega
    · push_neg at h
      rcases ih with ⟨j, hj0, hjk, hjne, hbs, hall⟩ | ⟨hall, hbs⟩
      · left
        refine ⟨j, hj0, Nat.le_succ_of_le hjk, hjne, ?_, ?_⟩
        · simp [backScan, h, hbs]
        · intro i hi1 hi2
          rcases Nat.lt_succ_iff_lt_or_eq.1 (Nat.lt_succ_of_le hi2) with hlt | heq
          · exact hall i hi1 (by omega)
          · rw [heq]
            exact h
      · right
        refine ⟨?_, by simp [backScan, h, hbs]⟩
        intro i hi1 hi2
        rcases Nat.lt_succ_iff_lt_or_eq.1 (Nat.lt_succ_of_le hi2) with hlt | heq
        · exact hall i hi1 (by omega)
        · rw [heq]
          exact h

/-- The reply returned by the `AppendEntries` handler on a failed
log-consistency check (same term, live node, known sender). -/
theorem appendEntries_fail_reply (node : Node) (args : AppendEntriesArgs) (now : Nat)
    (hDead : node.state ≠ NodeState.Dead) (hPeer : args.leaderId ∈ node.peerList)
    (hTerm : args.term = node.currentTerm)
    (hFail : ¬(args.lastLogIndex = 0 ∨
      (args.lastLogIndex ≤ node.log.length ∧
        args.lastLogTerm = logTerm node.log args.lastLogIndex))) :
    (node.appendEntries args now).2.1 =
      (if node.log.length < args.lastLogIndex then
        { term := node.currentTerm, success := false,
          recoveryIndex := node.log.length + 1, recoveryTerm := 0 }
      else
        { term := node.currentTerm, success := false,
          recoveryIndex :=
            backScan node.log (logTerm node.log args.lastLogIndex) (args.lastLogIndex - 1),
          recoveryTerm := logTerm node.log args.lastLogIndex }) := by
  have hnd : ¬(node.state = NodeState.Dead ∨ args.leaderId ∉ node.peerList) := by
    push_neg
    exact ⟨hDead, hPeer⟩
  have hgt : ¬(node.currentTerm < args.term) := by omega
  by_cases hF : node.state = NodeState.Follower <;>
    by_cases hLen : node.log.length < args.lastLogIndex <;>
      simp [Node.appendEntries, Node.becomeFollower, hnd, hgt, hTerm, hF, hFail, hLen, hPeer,
        hDead]

/-- Claim C4: on a failed log-consistency check with equal terms, if
`args.LastLogIndex` exceeds the log length the reply carries
`recoveryIndex = |log| + 1` and `recoveryTerm = 0`; otherwise
`recoveryTerm` is the local term at `args.LastLogIndex` and `recoveryIndex`
is one plus the closest lower index with a different term, defaulting to 1
when all lower indices share that term. -/
theorem appendEntries_recovery_hints (node : Node) (args : AppendEntriesArgs) (now : Nat)
    (hDead : node.state ≠ NodeState.Dead) (hPeer : args.leaderId ∈ node.peerList)
    (hTerm : args.term = node.currentTerm)
    (hFail : ¬(args.lastLogIndex = 0 ∨
      (args.lastLogIndex ≤ node.log.length ∧
        args.lastLogTerm = logTerm node.log args.lastLogIndex))) :
    (node.log.length < args.lastLogIndex →
      (node.appendEntries args now).2.1.recoveryIndex = node.log.length + 1 ∧
      (node.appendEntries args now).2.1.recoveryTerm = 0) ∧
    (args.lastLogIndex ≤ node.log.length →
      (node.appendEntries args now).2.1.recoveryTerm = logTerm node.log args.lastLogIndex ∧
      ((∃ j, 0 < j ∧ j < args.lastLogIndex ∧
          logTerm node.log j ≠ logTerm node.log args.lastLogIndex ∧
          (node.appendEntries args now).2.1.recoveryIndex = j + 1 ∧
          (∀ i, j < i → i < args.lastLogIndex →
            logTerm node.log i = logTerm node.log args.lastLogIndex)) ∨
        ((∀ i, 0 < i → i < args.lastLogIndex →
            logTerm node.log i = logTerm node.log args.lastLogIndex) ∧
          (node.appendEntries args now).2.1.recoveryIndex = 1))) := by
  have hrep := appendEntries_fail_reply node args now hDead hPeer hTerm hFail
  have hpos : 0 < args.lastLogIndex := by
    rcases Nat.eq_zero_or_pos args.lastLogIndex with h0 | h
    · exact absurd (Or.inl h0) hFail
    · exact h
  constructor
  · intro hLen
    rw [hrep, if_pos hLen]
    exact ⟨rfl, rfl⟩
  · intro hLe
    have hLen : ¬ node.log.length < args.lastLogIndex := by omega
    rw [hrep, if_neg hLen]
    refine ⟨rfl, ?_⟩
    rcases backScan_spec node.log (logTerm node.log args.lastLogIndex)
        (args.lastLogIndex - 1) with ⟨j, hj0, hjk, hjne, hbs, hall⟩ | ⟨hall, hbs⟩
    · left
      exact ⟨j, hj0, by omega, hjne, hbs, fun i hi1 hi2 => hall i hi1 (by omega)⟩
    · right
      exact ⟨fun i hi1 hi2 => hall i hi1 (by omega), hbs⟩

/-- Witness for `appendEntries_recovery_hints` at a concrete input: `nodeA`
(log terms `[1, 1, 2]`, current term 2) rejects an `AppendEntries` probe at
index 3 with mismatched term 9. -/
theorem appendEntries_recovery_hints_app :
    nodeA.state ≠ NodeState.Dead ∧ (2 : Nat) ∈ nodeA.peerList ∧ (2 : Nat) = nodeA.currentTerm ∧
    ¬((3 : Nat) = 0 ∨ ((3 : Nat) ≤ nodeA.log.length ∧ (9 : Nat) = logTerm nodeA.log 3)) ∧
    ((nodeA.log.length < 3 →
      (nodeA.appendEntries
        { term := 2, leaderId := 2, lastLogIndex := 3, lastLogTerm := 9,
          entries := [], leaderCommit := 0 } 5).2.1.recoveryIndex = nodeA.log.length + 1 ∧
      (nodeA.appendEntries
        { term := 2, leaderId := 2, lastLogIndex := 3, lastLogTerm := 9,
          entries := [], leaderCommit := 0 } 5).2.1.recoveryTerm = 0) ∧
    ((3 : Nat) ≤ nodeA.log.length →
      (nodeA.appendEntries
        { term := 2, leaderId := 2, lastLogIndex := 3, lastLogTerm := 9,
          entries := [], leaderCommit := 0 } 5).2.1.recoveryTerm = logTerm nodeA.log 3 ∧
      ((∃ j, 0 < j ∧ j < 3 ∧ logTerm nodeA.log j ≠ logTerm nodeA.log 3 ∧
          (nodeA.appendEntries
            { term := 2, leaderId := 2, lastLogIndex := 3, lastLogTerm := 9,
              entries := [], leaderCommit := 0 } 5).2.1.recoveryIndex = j + 1 ∧
          (∀ i, j < i → i < 3 → logTerm nodeA.log i = logTerm nodeA.log 3)) ∨
        ((∀ i, 0 < i → i < 3 → logTerm nodeA.log i = logTerm nodeA.log 3) ∧
          (nodeA.appendEntries
            { term := 2, leaderId := 2, lastLogIndex := 3, lastLogTerm := 9,
              entries := [], leaderCommit := 0 } 5).2.1.recoveryIndex = 1)))) :=
  ⟨by decide, by decide, by decide, by decide,
   appendEntries_recovery_hints nodeA
     { term := 2, leaderId := 2, lastLogIndex := 3, lastLogTerm := 9,
       entries := [], leaderCommit := 0 } 5
     (by decide) (by decide) (by decide) (by decide)⟩

/-- Characterization of `findLastWithTerm`: either no index in `[1, k]` has
term `t` and it returns 0, or it returns the largest such index. -/
theorem findLastWithTerm_spec (log : List LogEntry) (t : Nat) (k : Nat) :
    ((∀ i, 0 < i → i ≤ k → logTerm log i ≠ t) ∧ findLastWithTerm log t k = 0) ∨
    (∃ j, 0 < j ∧ j ≤ k ∧ logTerm log j = t ∧ findLastWithTerm log t k = j ∧
      (∀ i, j < i → i ≤ k → logTerm log i ≠ t)) := by
  induction k with
  | zero =>
    left
    exact ⟨fun i h1 h2 => absurd (Nat.lt_of_lt_of_le h1 h2) (lt_irrefl 0), rfl⟩
  | succ k ih =>
    by_cases h : logTerm log (k + 1) = t
    · right
      refine ⟨k + 1, Nat.succ_pos k, le_refl _, h, ?_, ?_⟩
      · simp [findLastWithTerm, h]
      · intro i h1 h2
        omega
    · rcases ih with ⟨hall, hfl⟩ | ⟨j, hj0, hjk, hjt, hfl, hall⟩
      · left
        refine ⟨?_, by simp [findLastWithTerm, h, hfl]⟩
        intro i h1 h2
        rcases Nat.lt_succ_iff_lt_or_eq.1 (Nat.lt_succ_of_le h2) with hlt | heq
        · exact hall i h1 (by omega)
        · rw [heq]
          exact h
      · right
        refine ⟨j, hj0, Nat.le_succ_of_le hjk, hjt, by simp [findLastWithTerm, h, hfl], ?_⟩
        intro i h1 h2
        rcases Nat.lt_succ_iff_lt_or_eq.1 (Nat.lt_succ_of_le h2) with hlt | heq
        · exact hall i h1 (by omega)
        · rw [heq]
          exact h

/-- Claim C5: when the leader processes an `AppendEntries` reply carrying
its leadership term while still Leader, a successful reply sets
`nextIndex[peer]` to the saved next index plus the number of entries sent
and `matchedIndex[peer]` to that value minus one; a failed reply with
`recoveryTerm = 0` jumps `nextIndex[peer]` to `recoveryIndex`, and with
`recoveryTerm ≠ 0` sets it to one plus the last local index whose term is
`recoveryTerm` when one exists, otherwise to `recoveryIndex`. -/
theorem leader_reply_processing (node : Node) (peer : Nat)
    (leadershipTerm nextIndexSaved entriesLen : Nat)
    (reply : AppendEntriesReply) (now : Nat)
    (hL : node.state = NodeState.Leader) (hT : reply.term = leadershipTerm) :
    (reply.success = true →
      (node.processAppendEntriesReply peer leadershipTerm nextIndexSaved entriesLen
          reply now).1.nextIndex peer = nextIndexSaved + entriesLen ∧
      (node.processAppendEntriesReply peer leadershipTerm nextIndexSaved entriesLen
          reply now).1.matchedIndex peer = nextIndexSaved + entriesLen - 1) ∧
    (reply.success = false → reply.recoveryTerm = 0 →
      (node.processAppendEntriesReply peer leadershipTerm nextIndexSaved entriesLen
          reply now).1.nextIndex peer = reply.recoveryIndex) ∧
    (reply.success = false → reply.recoveryTerm ≠ 0 →
      ((∃ j, 0 < j ∧ j ≤ node.log.length ∧ logTerm node.log j = reply.recoveryTerm ∧
          (∀ i, j < i → i ≤ node.log.length → logTerm node.log i ≠ reply.recoveryTerm) ∧
          (node.processAppendEntriesReply peer leadershipTerm nextIndexSaved entriesLen
              reply now).1.nextIndex peer = j + 1) ∨
        ((∀ i, 0 < i → i ≤ node.log.length → logTerm node.log i ≠ reply.recoveryTerm) ∧
          (node.processAppendEntriesReply peer leadershipTerm nextIndexSaved entriesLen
              reply now).1.nextIndex peer = reply.recoveryIndex))) := by
  have hngt : ¬(leadershipTerm < reply.term) := by omega
  unfold Node.processAppendEntriesReply
  rw [if_neg hngt, if_pos ⟨hL, hT.symm⟩]
  refine ⟨?_, ?_, ?_⟩
  · intro hs
    rw [if_pos hs]
    dsimp only
    simp
  · intro hs hrt
    rw [if_neg (by simp [hs]), if_pos hrt]
    dsimp only
    simp
  · intro hs hrt
    rw [if_neg (by simp [hs]), if_neg hrt]
    dsimp only
    rcases findLastWithTerm_spec node.log reply.recoveryTerm node.log.length with
        ⟨hall, hfl⟩ | ⟨j, hj0, hjk, hjt, hfl, hall⟩
    · right
      refine ⟨hall, ?_⟩
      rw [hfl]
      simp
    · left
      refine ⟨j, hj0, hjk, hjt, hall, ?_⟩
      rw [hfl, if_neg (by omega)]
      simp

/-- Witness for `leader_reply_processing` at a concrete input: the
single-node leader `nodeS` processes a successful reply from peer 2 for one
sent entry. -/
theorem leader_reply_processing_app :
    nodeS.state = NodeState.Leader ∧ (1 : Nat) = 1 ∧
    ((true = true →
      (nodeS.processAppendEntriesReply 2 1 1 1
          { term := 1, success := true, recoveryIndex := 0, recoveryTerm := 0 }
          0).1.nextIndex 2 = 1 + 1 ∧
      (nodeS.processAppendEntriesReply 2 1 1 1
          { term := 1, success := true, recoveryIndex := 0, recoveryTerm := 0 }
          0).1.matchedIndex 2 = 1 + 1 - 1) ∧
    (true = false → (0 : Nat) = 0 →
      (nodeS.processAppendEntriesReply 2 1 1 1
          { term := 1, success := true, recoveryIndex := 0, recoveryTerm := 0 }
          0).1.nextIndex 2 = 0) ∧
    (true = false → (0 : Nat) ≠ 0 →
      ((∃ j, 0 < j ∧ j ≤ nodeS.log.length ∧ logTerm nodeS.log j = 0 ∧
          (∀ i, j < i → i ≤ nodeS.log.length → logTerm nodeS.log i ≠ 0) ∧
          (nodeS.processAppendEntriesReply 2 1 1 1
              { term := 1, success := true, recoveryIndex := 0, recoveryTerm := 0 }
              0).1.nextIndex 2 = j + 1) ∨
        ((∀ i, 0 < i → i ≤ nodeS.log.length → logTerm nodeS.log i ≠ 0) ∧
          (nodeS.processAppendEntriesReply 2 1 1 1
              { term := 1, success := true, recoveryIndex := 0, recoveryTerm := 0 }
              0).1.nextIndex 2 = 0)))) :=
  ⟨by decide, rfl,
   leader_reply_processing nodeS 2 1 1 1
     { term := 1, success := true, recoveryIndex := 0, recoveryTerm := 0 } 0
     (by decide) rfl⟩

/-- A concrete leader derived from `nodeA`, whose peer set (unusually)
contains its own id, used to exercise `LeaveCluster` self-removal. -/
def nodeL : Node :=
  { nodeA with state := NodeState.Leader, peerList := {1, 2} }

/-- Counterexample to claim C6: at a Leader, `LeaveCluster` for the node's
own id replies `success = true`, not `false` — the handler sets
`reply.Success = true` before inspecting `args.ServerId`. -/
theorem leaveCluster_self_success_refute :
    (nodeL.leaveCluster { serverId := nodeL.id }).2.success = true := by decide

/-- Claim C6 (amended): at the Leader, a `LeaveCluster` call for the node's
own id replies `success = true`, but no `RemoveServer` entry for the node's
own id is appended — the node is returned unchanged, because the spawned
`newLogEntry` rejects self-removal, returning failure. -/
theorem leaveCluster_self_spec (node : Node) (args : LeaveClusterArgs)
    (hL : node.state = NodeState.Leader) (hSelf : args.serverId = node.id) :
    (node.leaveCluster args).2.success = true ∧
    (node.leaveCluster args).1 = node ∧
    (node.newLogEntry (Command.removeServer node.id)).2.1.1 = false := by
  by_cases hMem : args.serverId ∈ node.peerList <;>
    simp [Node.leaveCluster, Node.newLogEntry, hL, hSelf, hMem]

/-- Witness for `leaveCluster_self_spec` at a concrete input: the leader
`nodeL` (id 1) receives `LeaveCluster` for id 1. -/
theorem leaveCluster_self_spec_app :
    nodeL.state = NodeState.Leader ∧ (1 : Nat) = nodeL.id ∧
    ((nodeL.leaveCluster { serverId := 1 }).2.success = true ∧
     (nodeL.leaveCluster { serverId := 1 }).1 = nodeL ∧
     (nodeL.newLogEntry (Command.removeServer nodeL.id)).2.1.1 = false) :=
  ⟨by decide, by decide,
   leaveCluster_self_spec nodeL { serverId := 1 } (by decide) (by decide)⟩

/-- Counterexample to claim C8: `startElection` advances `currentTerm` but
sets `votedFor` to the node's own id (here 1), not the sentinel `-1`. -/
theorem startElection_votedFor_refute :
    (nodeA.startElection 3).currentTerm = nodeA.currentTerm + 1 ∧
    (nodeA.startElection 3).votedFor ≠ -1 := by decide

/-- Claim C8 (amended): `becomeFollower` — used by every step-down on
observing a higher term — resets `votedFor` to the sentinel `-1` while
setting `currentTerm`; `startElection` advances `currentTerm` by one but
sets `votedFor` to the node's own id (its self-vote), not the sentinel. -/
theorem term_advance_votedFor (node : Node) (newTerm now : Nat) :
    ((node.becomeFollower newTerm now).currentTerm = newTerm ∧
      (node.becomeFollower newTerm now).votedFor = -1) ∧
    ((node.startElection now).currentTerm = node.currentTerm + 1 ∧
      (node.startElection now).votedFor = (node.id : Int)) :=
  ⟨⟨rfl, rfl⟩, rfl, rfl⟩

/-- Claim C9: at a node that is not Leader, `newLogEntry` returns
`(false, nil, nil)` for every non-`Read` command and leaves the node
unchanged; and a `Read` command is served from local storage identically at
every node, regardless of role. -/
theorem newLogEntry_nonleader_spec (node : Node) (command : Command)
    (hNL : node.state ≠ NodeState.Leader) :
    ((∀ k, command ≠ Command.read k) →
      node.newLogEntry command = (node, (false, none, none), false)) ∧
    (∀ n : Node, ∀ k, (n.newLogEntry (Command.read k)).1 = n ∧
      (n.newLogEntry (Command.read k)).2 = (readResult n k, false)) := by
  constructor
  · intro hk
    cases command with
    | read key => exact absurd rfl (hk key)
    | write key val => simp [Node.newLogEntry, hNL]
    | addServer sid addr => simp [Node.newLogEntry, hNL]
    | removeServer sid => simp [Node.newLogEntry, hNL]
  · intro n k
    by_cases hL : n.state = NodeState.Leader <;> simp [Node.newLogEntry, hL]

/-- Witness for `newLogEntry_nonleader_spec` at a concrete input: the
follower `nodeA` receives an ordinary write command. -/
theorem newLogEntry_nonleader_spec_app :
    nodeA.state ≠ NodeState.Leader ∧
    (((∀ k, Command.write "a" 5 ≠ Command.read k) →
      nodeA.newLogEntry (Command.write "a" 5) = (nodeA, (false, none, none), false)) ∧
    (∀ n : Node, ∀ k, (n.newLogEntry (Command.read k)).1 = n ∧
      (n.newLogEntry (Command.read k)).2 = (readResult n k, false))) :=
  ⟨by decide, newLogEntry_nonleader_spec nodeA (Command.write "a" 5) (by decide)⟩

/-- Length of a dispatched batch equals the number of pending entries. -/
theorem dispatchFrom_length (pending : List LogEntry) (term : Nat) :
    ∀ base, (dispatchFrom pending term base).length = pending.length := by
  induction pending with
  | nil =>
    intro base
    rfl
  | cons e rest ih =>
    intro base
    simp [dispatchFrom, ih]

/-- The `k`-th dispatched record carries the `k`-th pending command, with
index `base + k + 1` and the snapshot term. -/
theorem dispatchFrom_get (pending : List LogEntry) (term : Nat) :
    ∀ (base k : Nat), (dispatchFrom pending term base).get? k =
      (pending.get? k).map
        (fun e => { command := e.command, term := term, index := base + k + 1 }) := by
  induction pending with
  | nil =>
    intro base k
    simp [dispatchFrom]
  | cons e rest ih =>
    intro base k
    cases k with
    | zero => simp [dispatchFrom]
    | succ k =>
      have harith : base + 1 + k + 1 = base + (k + 1) + 1 := by omega
      simp only [dispatchFrom, List.get?_cons_succ, ih (base + 1) k, harith]

/-- A concrete node whose committed entry was created in term 1 while the
node's current term is 2: the dispatcher stamps the delivery with term 2. -/
def nodeT : Node :=
  { nodeA with log := [sampleEntry 1], commitLength := 1, lastApplied := 0, currentTerm := 2 }

/-- Claim C10: every record delivered by one dispatcher iteration carries
`Index` equal to the entry's 1-based log position (`lastApplied + k + 1` for
the `k`-th delivery, hence strictly increasing, resuming at the advanced
`lastApplied`) but carries `Term` equal to the node's `currentTerm` at
dispatch, not the stored entry term — on `nodeT` the delivered term 2
differs from the entry's own term 1. -/
theorem sendCommit_dispatch_spec (node : Node) (hInv : node.commitInv) :
    node.sendCommitStep.2.length = node.commitLength - node.lastApplied ∧
    (∀ k, k < node.commitLength - node.lastApplied →
      node.sendCommitStep.2.get? k =
        (node.log.get? (node.lastApplied + k)).map
          (fun e => { command := e.command, term := node.currentTerm,
                      index := node.lastApplied + k + 1 })) ∧
    node.sendCommitStep.1.lastApplied = node.commitLength ∧
    node.sendCommitStep.1.commitLength = node.commitLength ∧
    (nodeT.sendCommitStep.2.map CommitEntry.term = [nodeT.currentTerm] ∧
      nodeT.currentTerm ≠ logTerm nodeT.log 1) := by
  obtain ⟨h1, h2⟩ := hInv
  by_cases h : node.lastApplied < node.commitLength
  · refine ⟨?_, ?_, ?_, ?_, by decide⟩
    · simp only [Node.sendCommitStep, gt_iff_lt, if_pos h]
      rw [dispatchFrom_length]
      simp only [List.length_take, List.length_drop]
      omega
    · intro k hk
      simp only [Node.sendCommitStep, gt_iff_lt, if_pos h]
      rw [dispatchFrom_get]
      rw [List.get?_take hk, List.get?_drop]
    · simp only [Node.sendCommitStep, gt_iff_lt, if_pos h]
    · simp only [Node.sendCommitStep, gt_iff_lt, if_pos h]
  · refine ⟨?_, ?_, ?_, ?_, by decide⟩
    · simp only [Node.sendCommitStep, gt_iff_lt, if_neg h]
      rw [dispatchFrom_length]
      simp only [List.length_nil]
      omega
    · intro k hk
      omega
    · simp only [Node.sendCommitStep, gt_iff_lt, if_neg h]
      omega
    · simp only [Node.sendCommitStep, gt_iff_lt, if_neg h]

/-- Witness for `sendCommit_dispatch_spec` at a concrete input: `nodeT` has
one committed, unapplied entry. -/
theorem sendCommit_dispatch_spec_app :
    nodeT.commitInv ∧
    (nodeT.sendCommitStep.2.length = nodeT.commitLength - nodeT.lastApplied ∧
    (∀ k, k < nodeT.commitLength - nodeT.lastApplied →
      nodeT.sendCommitStep.2.get? k =
        (nodeT.log.get? (nodeT.lastApplied + k)).map
          (fun e => { command := e.command, term := nodeT.currentTerm,
                      index := nodeT.lastApplied + k + 1 })) ∧
    nodeT.sendCommitStep.1.lastApplied = nodeT.commitLength ∧
    nodeT.sendCommitStep.1.commitLength = nodeT.commitLength ∧
    (nodeT.sendCommitStep.2.map CommitEntry.term = [nodeT.currentTerm] ∧
      nodeT.currentTerm ≠ logTerm nodeT.log 1)) :=
  ⟨⟨by decide, by decide⟩, sendCommit_dispatch_spec nodeT ⟨by decide, by decide⟩⟩

/-- Claim C7: each modelled operation preserves
`lastApplied ≤ commitLength ≤ |log|` and never decreases `lastApplied` or
`commitLength`.  The dispatcher advances only `lastApplied`; the two commit
loops advance only `commitLength` (bounded by the log length); and the
`AppendEntries` handler preserves the invariant provided its arguments do
not truncate below the committed prefix
(`commitLength ≤ args.LastLogIndex + |args.Entries|`), which leader
completeness guarantees for the sending leader in real executions. -/
theorem commit_invariant_preserved (node : Node) (args : AppendEntriesArgs)
    (now peer leadershipTerm nextIndexSaved entriesLen : Nat) (reply : AppendEntriesReply)
    (hInv : node.commitInv)
    (hSafe : node.commitLength ≤ args.lastLogIndex + args.entries.length) :
    (node.sendCommitStep.1.commitInv ∧
      node.lastApplied ≤ node.sendCommitStep.1.lastApplied ∧
      node.sendCommitStep.1.commitLength = node.commitLength) ∧
    (node.advanceCommitNoPeers.1.commitInv ∧
      node.commitLength ≤ node.advanceCommitNoPeers.1.commitLength ∧
      node.advanceCommitNoPeers.1.lastApplied = node.lastApplied) ∧
    ((node.processAppendEntriesReply peer leadershipTerm nextIndexSaved entriesLen reply
        now).1.commitInv ∧
      node.commitLength ≤
        (node.processAppendEntriesReply peer leadershipTerm nextIndexSaved entriesLen reply
          now).1.commitLength ∧
      (node.processAppendEntriesReply peer leadershipTerm nextIndexSaved entriesLen reply
        now).1.lastApplied = node.lastApplied) ∧
    ((node.appendEntries args now).1.commitInv ∧
      node.commitLength ≤ (node.appendEntries args now).1.commitLength ∧
      (node.appendEntries args now).1.lastApplied = node.lastApplied) := by
  obtain ⟨h1, h2⟩ := hInv
  refine ⟨?_, ?_, ?_, ?_⟩
  · by_cases h : node.lastApplied < node.commitLength
    · simp only [Node.sendCommitStep, Node.commitInv, gt_iff_lt, if_pos h]
      exact ⟨⟨le_refl _, h2⟩, le_of_lt h, by trivial⟩
    · simp only [Node.sendCommitStep, Node.commitInv, gt_iff_lt, if_neg h]
      exact ⟨⟨h1, h2⟩, le_refl _, by trivial⟩
  · have hCore : node.commitLength ≤
        commitScanNoPeers node.log node.currentTerm node.commitLength ∧
        commitScanNoPeers node.log node.currentTerm node.commitLength ≤ node.log.length := by
      unfold commitScanNoPeers
      rcases foldl_select_eq_or (fun i => logTerm node.log i = node.currentTerm)
          (List.range' (node.commitLength + 1) (node.log.length - node.commitLength))
          node.commitLength with h | ⟨hmem, _⟩
      · rw [h]
        omega
      · have hb := List.mem_range'_1.1 hmem
        omega
    by_cases hc : node.peerList.card = 0 ∧ node.log.length > node.commitLength
    · unfold Node.advanceCommitNoPeers
      rw [if_pos hc]
      exact ⟨⟨le_trans h1 hCore.1, hCore.2⟩, hCore.1, rfl⟩
    · unfold Node.advanceCommitNoPeers
      rw [if_neg hc]
      exact ⟨⟨h1, h2⟩, le_refl _, rfl⟩
  · have hCoreQ : ∀ m : Nat → Nat,
        node.commitLength ≤
          commitScanQuorum node.log node.currentTerm node.peerList m node.commitLength ∧
        commitScanQuorum node.log node.currentTerm node.peerList m node.commitLength ≤
          node.log.length := by
      intro m
      unfold commitScanQuorum
      rcases foldl_select_eq_or
          (fun i => logTerm node.log i = node.currentTerm ∧
            quorumMatch node.peerList m i * 2 > node.peerList.card + 1)
          (List.range' (node.commitLength + 1) (node.log.length - node.commitLength))
          node.commitLength with h | ⟨hmem, _⟩
      · rw [h]
        omega
      · have hb := List.mem_range'_1.1 hmem
        omega
    unfold Node.processAppendEntriesReply
    by_cases hgt : leadershipTerm < reply.term
    · rw [if_pos hgt]
      exact ⟨⟨h1, h2⟩, le_refl _, rfl⟩
    · rw [if_neg hgt]
      by_cases hLT : node.state = NodeState.Leader ∧ leadershipTerm = reply.term
      · rw [if_pos hLT]
        by_cases hs : reply.success = true
        · rw [if_pos hs]
          dsimp only
          exact ⟨⟨le_trans h1 (hCoreQ _).1, (hCoreQ _).2⟩, (hCoreQ _).1, rfl⟩
        · rw [if_neg hs]
          by_cases hrt : reply.recoveryTerm = 0
          · rw [if_pos hrt]
            exact ⟨⟨h1, h2⟩, le_refl _, rfl⟩
          · rw [if_neg hrt]
            dsimp only
            by_cases hfl : findLastWithTerm node.log reply.recoveryTerm node.log.length = 0
            · rw [if_pos hfl]
              exact ⟨⟨h1, h2⟩, le_refl _, rfl⟩
            · rw [if_neg hfl]
              exact ⟨⟨h1, h2⟩, le_refl _, rfl⟩
      · rw [if_neg hLT]
        exact ⟨⟨h1, h2⟩, le_refl _, rfl⟩
  · by_cases hnd : node.state = NodeState.Dead ∨ args.leaderId ∉ node.peerList
    · simp [Node.appendEntries, Node.commitInv, hnd, h1, h2]
    · have hnd2 := hnd
      push_neg at hnd2
      obtain ⟨hD, hP⟩ := hnd2
      by_cases hgt : node.currentTerm < args.term
      · by_cases hchk : args.lastLogIndex = 0 ∨
            (args.lastLogIndex ≤ node.log.length ∧
              args.lastLogTerm = logTerm node.log args.lastLogIndex) <;>
          by_cases hLC : node.commitLength < args.leaderCommit <;>
            by_cases hLen : node.log.length < args.lastLogIndex <;>
              simp [Node.appendEntries, Node.becomeFollower, Node.commitInv, hnd, hgt, hchk,
                hLC, hLen, h1, h2, hD, hP] <;>
              omega
      · by_cases hTerm : args.term = node.currentTerm
        · by_cases hF : node.state = NodeState.Follower <;>
            by_cases hchk : args.lastLogIndex = 0 ∨
                (args.lastLogIndex ≤ node.log.length ∧
                  args.lastLogTerm = logTerm node.log args.lastLogIndex) <;>
              by_cases hLC : node.commitLength < args.leaderCommit <;>
                by_cases hLen : node.log.length < args.lastLogIndex <;>
                  simp [Node.appendEntries, Node.becomeFollower, Node.commitInv, hnd, hgt, hTerm,
                    hF, hchk, hLC, hLen, h1, h2, hD, hP] <;>
                  omega
        · simp [Node.appendEntries, Node.commitInv, hnd, hgt, hTerm, h1, h2, hD, hP]

/-- Witness for `commit_invariant_preserved` at concrete inputs: `nodeA`
(invariant `0 ≤ 1 ≤ 3` holds) with a matching `AppendEntries` at index 2
carrying one entry and leader commit 2, and a successful reply from peer 2
at leadership term 2. -/
theorem commit_invariant_preserved_app :
    nodeA.commitInv ∧
    nodeA.commitLength ≤ 2 + [sampleEntry 2].length ∧
    ((nodeA.sendCommitStep.1.commitInv ∧
      nodeA.lastApplied ≤ nodeA.sendCommitStep.1.lastApplied ∧
      nodeA.sendCommitStep.1.commitLength = nodeA.commitLength) ∧
    (nodeA.advanceCommitNoPeers.1.commitInv ∧
      nodeA.commitLength ≤ nodeA.advanceCommitNoPeers.1.commitLength ∧
      nodeA.advanceCommitNoPeers.1.lastApplied = nodeA.lastApplied) ∧
    ((nodeA.processAppendEntriesReply 2 2 1 1
        { term := 2, success := true, recoveryIndex := 0, recoveryTerm := 0 } 5).1.commitInv ∧
      nodeA.commitLength ≤
        (nodeA.processAppendEntriesReply 2 2 1 1
          { term := 2, success := true, recoveryIndex := 0, recoveryTerm := 0 }
          5).1.commitLength ∧
      (nodeA.processAppendEntriesReply 2 2 1 1
        { term := 2, success := true, recoveryIndex := 0, recoveryTerm := 0 }
        5).1.lastApplied = nodeA.lastApplied) ∧
    ((nodeA.appendEntries
        { term := 2, leaderId := 2, lastLogIndex := 2, lastLogTerm := 1,
          entries := [sampleEntry 2], leaderCommit := 2 } 5).1.commitInv ∧
      nodeA.commitLength ≤
        (nodeA.appendEntries
          { term := 2, leaderId := 2, lastLogIndex := 2, lastLogTerm := 1,
            entries := [sampleEntry 2], leaderCommit := 2 } 5).1.commitLength ∧
      (nodeA.appendEntries
        { term := 2, leaderId := 2, lastLogIndex := 2, lastLogTerm := 1,
          entries := [sampleEntry 2], leaderCommit := 2 } 5).1.lastApplied =
        nodeA.lastApplied)) :=
  ⟨⟨by decide, by decide⟩, by decide,
   commit_invariant_preserved nodeA
     { term := 2, leaderId := 2, lastLogIndex := 2, lastLogTerm := 1,
       entries := [sampleEntry 2], leaderCommit := 2 } 5 2 2 1 1
     { term := 2, success := true, recoveryIndex := 0, recoveryTerm := 0 }
     ⟨by decide, by decide⟩ (by decide)⟩

end Raft
